import Mathlib

/-!
Verification of the Riko input-deck generators.

Shallow embedding of the two scripts:
* `scripts/app_gen.py`   — CSV-sweep template renderer (`render_template`,
  `determine_job_name`, `sanitize_job_name`).
* `scripts/app1-input.py` — combination-based generator (`build_combinations`,
  `apply_replacements`, `generate_files`).

Python dictionaries of CSV values are modelled as maps `String → Option String`,
where `none` covers both an absent key and a `None` value (the two are treated
identically by every function under study).  Text is modelled as `String` /
`List Char`.
-/

/-! ### Token scanning: the regex `\x7b\x7b([A-Za-z0-9_]+)\x7d\x7d` of app_gen.py -/

/-- Character class `[A-Za-z0-9_]` of `TOKEN_PATTERN` (ASCII alphanumerics plus
underscore; `Char.isAlphanum` is exactly ASCII `A-Z`, `a-z`, `0-9`). -/
def isTokenChar (c : Char) : Bool :=
  c.isAlphanum || c == '_'

/-- Attempt to match `TOKEN_PATTERN` at the head of the text, exactly as
`re.sub` tries the pattern at one position: two opening braces, a maximal
nonempty run of token characters (greedy `+`; no backtracking can help since
`\x7d` is not a token character), two closing braces.  Returns the token name
and the remaining text after the match. -/
def matchTokenAt : List Char → Option (String × List Char)
  | c1 :: c2 :: cs =>
    if c1 = '\x7b' ∧ c2 = '\x7b' then
      if cs.takeWhile isTokenChar = [] then none
      else
        match cs.dropWhile isTokenChar with
        | d1 :: d2 :: rest2 =>
          if d1 = '\x7d' ∧ d2 = '\x7d' then
            some (String.mk (cs.takeWhile isTokenChar), rest2)
          else none
        | _ => none
    else none
  | _ => none

theorem matchTokenAt_structure (l : List Char) (t : String) (r : List Char)
    (h : matchTokenAt l = some (t, r)) :
    l = '\x7b' :: '\x7b' :: (t.data ++ '\x7d' :: '\x7d' :: r) ∧
      t.data ≠ [] ∧ (∀ c ∈ t.data, isTokenChar c) := by
  match l with
  | [] => simp [matchTokenAt] at h
  | [c1] => simp [matchTokenAt] at h
  | c1 :: c2 :: cs =>
    rw [matchTokenAt] at h
    split at h
    · split at h
      · exact absurd h (by simp)
      · rename_i hb hrun
        split at h
        · rename_i d1 d2 rest2 hd
          split at h
          · rename_i hc
            simp only [Option.some.injEq, Prod.mk.injEq] at h
            obtain ⟨ht, hr⟩ := h
            obtain ⟨rfl, rfl⟩ := hb
            obtain ⟨rfl, rfl⟩ := hc
            subst hr
            refine ⟨?_, ?_, ?_⟩
            · rw [← ht]
              dsimp only
              rw [← hd, List.takeWhile_append_dropWhile]
            · rw [← ht]; simpa using hrun
            · intro c hc'
              rw [← ht] at hc'
              exact List.mem_takeWhile_imp hc'
          · exact absurd h (by simp)
        · exact absurd h (by simp)
    · exact absurd h (by simp)

theorem matchTokenAt_length (l : List Char) (t : String) (r : List Char)
    (h : matchTokenAt l = some (t, r)) : r.length < l.length := by
  obtain ⟨hl, -, -⟩ := matchTokenAt_structure l t r h
  rw [hl]
  simp
  omega

/-- One `Seg` per callback decision of the single `re.sub` pass: either a
character the pattern did not match (the scanner then advances one position),
or a matched `\x7b\x7bTOKEN\x7d\x7d` occurrence. -/
inductive Seg where
  | lit (c : Char) : Seg
  | tok (name : String) : Seg
deriving DecidableEq, Repr

/-- The left-to-right non-overlapping scan of `re.sub`, with explicit fuel so
that the definition is structurally recursive: try the pattern at each
position, consuming the match on success and one character on failure. -/
def tokenizeFuel : Nat → List Char → List Seg
  | 0, _ => []
  | _ + 1, [] => []
  | fuel + 1, c :: cs =>
    match matchTokenAt (c :: cs) with
    | some (t, rest) => Seg.tok t :: tokenizeFuel fuel rest
    | none => Seg.lit c :: tokenizeFuel fuel cs

/-- The scan of the whole text; `length` fuel always suffices because every
step of the scan consumes at least one character. -/
def tokenize (cs : List Char) : List Seg := tokenizeFuel cs.length cs

theorem tokenizeFuel_fuel_irrel (f1 : Nat) : ∀ (f2 : Nat) (cs : List Char),
    cs.length ≤ f1 → cs.length ≤ f2 → tokenizeFuel f1 cs = tokenizeFuel f2 cs := by
  induction f1 with
  | zero =>
    intro f2 cs h1 _
    rw [List.length_eq_zero.mp (Nat.le_zero.mp h1)]
    cases f2 <;> rfl
  | succ f ih =>
    intro f2 cs h1 h2
    match cs with
    | [] => cases f2 <;> rfl
    | c :: cs' =>
      match f2 with
      | 0 => exact absurd h2 (by simp)
      | g + 1 =>
        rw [tokenizeFuel, tokenizeFuel]
        cases h : matchTokenAt (c :: cs') with
        | some tr =>
          obtain ⟨t, rest⟩ := tr
          have hlen := matchTokenAt_length _ _ _ h
          simp only [List.length_cons] at h1 h2 hlen
          show Seg.tok t :: tokenizeFuel f rest = Seg.tok t :: tokenizeFuel g rest
          rw [ih g rest (by omega) (by omega)]
        | none =>
          simp only [List.length_cons] at h1 h2
          show Seg.lit c :: tokenizeFuel f cs' = Seg.lit c :: tokenizeFuel g cs'
          rw [ih g cs' (by omega) (by omega)]

/-- The original text of one segment. -/
def segOrig : Seg → List Char
  | .lit c => [c]
  | .tok n => '\x7b' :: '\x7b' :: (n.data ++ ['\x7d', '\x7d'])

/-- What the `replace` callback of `render_template` emits for one match (and
the untouched text for one unmatched character): the mapped value for a bound
token, the original token text (`match.group(0)`) for a missing one. -/
def segRender (parameters : String → Option String) : Seg → List Char
  | .lit c => [c]
  | .tok n =>
    match parameters n with
    | some v => v.data
    | none => '\x7b' :: '\x7b' :: (n.data ++ ['\x7d', '\x7d'])

/-- The token name the callback appends to `missing_keys` for one segment. -/
def segMissing (parameters : String → Option String) : Seg → Option String
  | .lit _ => none
  | .tok n => if (parameters n).isSome then none else some n

/-- The token name of a segment, if it is a token occurrence. -/
def segName? : Seg → Option String
  | .lit _ => none
  | .tok n => some n

/-- Token names occurring as well-formed placeholders, in match order. -/
def foundTokens (template_text : String) : List String :=
  (tokenize template_text.data).filterMap segName?

/-- The text produced by the full `re.sub` pass (the local `rendered`). -/
def renderOut (parameters : String → Option String) (segs : List Seg) : List Char :=
  (segs.map (segRender parameters)).flatten

/-- The `missing_keys` list accumulated by the callback, in match order. -/
def missingKeys (parameters : String → Option String) (segs : List Seg) : List String :=
  segs.filterMap (segMissing parameters)

/-- Order-preserving de-duplication keeping first occurrences, as in the
`seen` / `ordered_missing` loop of `render_template`. -/
def dedupFirst (seen : List String) : List String → List String
  | [] => []
  | k :: ks => if k ∈ seen then dedupFirst seen ks else k :: dedupFirst (k :: seen) ks

/-- `render_template` of app_gen.py: substitute every `\x7b\x7bTOKEN\x7d\x7d`
via the callback, then raise `KeyError` with the de-duplicated missing list if
any token was missing, otherwise return the rendered text. -/
def render_template (template_text : String) (parameters : String → Option String) :
    Except (List String) String :=
  let segs := tokenize template_text.data
  let rendered := String.mk (renderOut parameters segs)
  let missing := missingKeys parameters segs
  if missing = [] then Except.ok rendered
  else Except.error (dedupFirst [] missing)

/-! ### app_gen.py: job naming -/

/-- Python `str.strip()` (modelled for the ASCII whitespace the claims use). -/
def pyStrip (s : String) : String :=
  String.mk (((s.data.dropWhile Char.isWhitespace).reverse.dropWhile Char.isWhitespace).reverse)

/-- The allow-list `[A-Za-z0-9_-]` of `sanitize_job_name` (ASCII letters,
digits, underscore, hyphen). -/
def isSafeChar (c : Char) : Bool :=
  c.isAlphanum || c == '_' || c == '-'

/-- `re.sub(r'[^A-Za-z0-9_-]+', '_', name)`: every maximal nonempty run of
disallowed characters becomes a single underscore.  The Boolean flag records
whether the scan is inside an unsafe run whose underscore has already been
emitted. -/
def collapseUnsafe : Bool → List Char → List Char
  | _, [] => []
  | inRun, c :: cs =>
    if isSafeChar c then c :: collapseUnsafe false cs
    else if inRun then collapseUnsafe true cs
    else '_' :: collapseUnsafe true cs

/-- `sanitize_job_name` of app_gen.py. -/
def sanitize_job_name (name : String) : String :=
  let safe := String.mk (collapseUnsafe false name.data)
  if safe = "" then "case_000" else safe

/-- Decimal digits of a natural number, most significant first, with explicit
fuel (`n + 1` always suffices). -/
def natDigitsAux : Nat → Nat → List Char
  | 0, _ => []
  | fuel + 1, n =>
    if n < 10 then [Nat.digitChar n]
    else natDigitsAux fuel (n / 10) ++ [Nat.digitChar (n % 10)]

/-- Python `str` of a nonnegative integer: its decimal digits. -/
def natStr (n : Nat) : String := String.mk (natDigitsAux (n + 1) n)

/-- Python `'\x7b0:03d\x7d'.format(n)`: decimal digits zero-padded on the left
to a minimum width of 3. -/
def pad3 (n : Nat) : String :=
  if (natStr n).length < 3 then
    String.mk (List.replicate (3 - (natStr n).length) '0' ++ (natStr n).data)
  else natStr n

/-- The recognized job-name columns, in priority order. -/
def DEFAULT_NAME_CANDIDATES : List String :=
  ["job_name", "JOB_NAME", "JobName", "case", "CASE", "Case"]

/-- The candidate-scanning loop of `determine_job_name`: the first key that is
present with a truthy (non-empty, non-null) value whose stripped form is
non-empty wins, sanitized. -/
def determineFromKeys (parameters : String → Option String) : List String → Option String
  | [] => none
  | key :: rest =>
    match parameters key with
    | some v =>
      if v ≠ "" then
        (if pyStrip v ≠ "" then some (sanitize_job_name (pyStrip v))
         else determineFromKeys parameters rest)
      else determineFromKeys parameters rest
    | none => determineFromKeys parameters rest

/-- `determine_job_name` of app_gen.py. -/
def determine_job_name (parameters : String → Option String) (index : Nat) : String :=
  match determineFromKeys parameters DEFAULT_NAME_CANDIDATES with
  | some name => name
  | none => "case_" ++ pad3 (index + 1)

/-- Whether one candidate key would be accepted by the loop. -/
def qualifies (parameters : String → Option String) (key : String) : Bool :=
  match parameters key with
  | some v => v != "" && pyStrip v != ""
  | none => false

/-! ### app1-input.py: combinations, replacements and file generation -/

/-- One replacement candidate (`\x7b"index": i, "text": t\x7d`); `index` is the
1-based ordinal assigned by `collect_targets_and_replacements`. -/
structure Candidate where
  index : Nat
  text : String
deriving DecidableEq, Repr

/-- One target (`\x7b"target_index": i, "text": t, "replacements": rs\x7d`). -/
structure Target where
  target_index : Nat
  text : String
  replacements : List Candidate
deriving DecidableEq, Repr

/-- One combination produced by `build_combinations`. -/
structure Combination where
  label : String
  pairs : List (Target × Candidate)
deriving DecidableEq, Repr

/-- `itertools.product`: Cartesian product with the rightmost factor varying
fastest. -/
def listProd {α : Type} : List (List α) → List (List α)
  | [] => [[]]
  | l :: ls => l.flatMap (fun x => (listProd ls).map (x :: ·))

/-- Python `"-".join`. -/
def joinDash : List String → String
  | [] => ""
  | [s] => s
  | s :: rest => s ++ "-" ++ joinDash rest

/-- `build_combinations` of app1-input.py. -/
def build_combinations (target_definitions : List Target) : List Combination :=
  if target_definitions = [] then []
  else
    (listProd (target_definitions.map Target.replacements)).map fun product =>
      { label := joinDash (product.map fun item => natStr item.index),
        pairs := target_definitions.zip product }

/-- The case-insensitive character comparison of `re.IGNORECASE`. -/
def charIEq (a b : Char) : Bool := a.toLower == b.toLower

/-- Pointwise prefix test under a character comparison. -/
def isPrefixBy (eqf : Char → Char → Bool) : List Char → List Char → Bool
  | [], _ => true
  | _ :: _, [] => false
  | p :: ps, c :: cs => eqf p c && isPrefixBy eqf ps cs

/-- A pointwise character-comparison test between a pattern and a chunk of the
same length. -/
def iMatches (eqf : Char → Char → Bool) : List Char → List Char → Bool
  | [], [] => true
  | p :: ps, c :: cs => eqf p c && iMatches eqf ps cs
  | _, _ => false

/-- Interleave a leading literal chunk with (match, literal) blocks: the shape
of a text decomposed by the non-overlapping scan. -/
def sewn (head : List Char) (rest : List (List Char × List Char)) : List Char :=
  head ++ (rest.map (fun mp => mp.1 ++ mp.2)).flatten

/-- The non-overlapping left-to-right replace-all scan shared by
`str.count` / `str.replace` (exact equality) and `re.subn` on a
`re.escape`d pattern (case-insensitive equality): at each position, if the
nonempty pattern `p :: ps` matches, emit the replacement and skip the match;
otherwise keep one character.  Fuel keeps the recursion structural; `length`
fuel always suffices. -/
def scanReplaceFuel (eqf : Char → Char → Bool) (p : Char) (ps repl : List Char) :
    Nat → List Char → List Char × Nat
  | 0, _ => ([], 0)
  | _ + 1, [] => ([], 0)
  | fuel + 1, c :: cs =>
    if isPrefixBy eqf (p :: ps) (c :: cs) then
      let r := scanReplaceFuel eqf p ps repl fuel (cs.drop ps.length)
      (repl ++ r.1, r.2 + 1)
    else
      let r := scanReplaceFuel eqf p ps repl fuel cs
      (c :: r.1, r.2)

/-- Replace-all with count for a nonempty pattern. -/
def scanReplace (eqf : Char → Char → Bool) (p : Char) (ps repl s : List Char) :
    List Char × Nat :=
  scanReplaceFuel eqf p ps repl s.length s

/-- Replace all matches of `target` in `s` by `repl` and count them, under a
character comparison: Python's `s.count(target)` and `s.replace(target, repl)`
(with `eqf` plain equality), and `re.subn` of the escaped pattern (with `eqf`
case-insensitive).  An empty pattern matches at every boundary, as in Python. -/
def pyReplaceCount (eqf : Char → Char → Bool) (target repl s : List Char) :
    List Char × Nat :=
  match target with
  | [] => (repl ++ s.flatMap (fun c => c :: repl), s.length + 1)
  | p :: ps => scanReplace eqf p ps repl s

/-- `apply_replacements` of app1-input.py: fold the (target, replacement)
pairs in order over the evolving text, collecting one substitution count per
pair.  Exact mode (`完全一致`) counts and replaces literal occurrences; any
other mode is the case-insensitive escaped-pattern substitution. -/
def apply_replacements (base_text : String) (combo_pairs : List (Target × Candidate))
    (search_mode : String) : String × List Nat :=
  match combo_pairs with
  | [] => (base_text, [])
  | pair :: rest =>
    let step :=
      if search_mode = "完全一致" then
        pyReplaceCount (fun a b => a == b) pair.1.text.data pair.2.text.data base_text.data
      else
        pyReplaceCount charIEq pair.1.text.data pair.2.text.data base_text.data
    let next := apply_replacements (String.mk step.1) rest search_mode
    (next.1, step.2 :: next.2)

/-- `generate_files` of app1-input.py, with the filesystem modelled as the
returned list of (file name, contents) writes: a combination with any zero
substitution count is skipped (label recorded, nothing written); otherwise one
file `\x7bbase\x7d_(\x7blabel\x7d).inp` is written with the substituted text
and the success counter is incremented.  Encoding and directory are plumbing
and not modelled. -/
def generate_files (selected_combinations : List Combination)
    (template_content : String) (search_mode : String) (base_name : String) :
    List (String × String) × Nat × List String :=
  match selected_combinations with
  | [] => ([], 0, [])
  | combo :: rest =>
    let r := apply_replacements template_content combo.pairs search_mode
    let others := generate_files rest template_content search_mode base_name
    if 0 ∈ r.2 then
      (others.1, others.2.1, combo.label :: others.2.2)
    else
      ((base_name ++ "_(" ++ combo.label ++ ").inp", r.1) :: others.1,
        others.2.1 + 1, others.2.2)

/-! ### Basic facts about the scan -/

theorem tokenize_nil : tokenize [] = [] := rfl

theorem tokenize_cons_some (c : Char) (cs : List Char) (t : String) (rest : List Char)
    (h : matchTokenAt (c :: cs) = some (t, rest)) :
    tokenize (c :: cs) = Seg.tok t :: tokenize rest := by
  have hlen := matchTokenAt_length _ _ _ h
  simp only [List.length_cons] at hlen
  show tokenizeFuel (c :: cs).length (c :: cs) = Seg.tok t :: tokenizeFuel rest.length rest
  simp only [List.length_cons]
  rw [tokenizeFuel, h]
  show Seg.tok t :: tokenizeFuel cs.length rest = _
  rw [tokenizeFuel_fuel_irrel cs.length rest.length rest (by omega) le_rfl]

theorem tokenize_cons_none (c : Char) (cs : List Char)
    (h : matchTokenAt (c :: cs) = none) :
    tokenize (c :: cs) = Seg.lit c :: tokenize cs := by
  show tokenizeFuel (c :: cs).length (c :: cs) = Seg.lit c :: tokenizeFuel cs.length cs
  simp only [List.length_cons]
  rw [tokenizeFuel, h]

/-- A convenient induction principle for the scan. -/
theorem tokenize_ind (motive : List Char → Prop) (hnil : motive [])
    (hsome : ∀ c cs t rest, matchTokenAt (c :: cs) = some (t, rest) →
      motive rest → motive (c :: cs))
    (hnone : ∀ c cs, matchTokenAt (c :: cs) = none → motive cs → motive (c :: cs)) :
    ∀ cs, motive cs := by
  suffices H : ∀ n cs, List.length cs ≤ n → motive cs by
    exact fun cs => H cs.length cs le_rfl
  intro n
  induction n with
  | zero =>
    intro cs h
    rw [List.length_eq_zero.mp (Nat.le_zero.mp h)]
    exact hnil
  | succ m ih =>
    intro cs h
    match cs with
    | [] => exact hnil
    | c :: cs' =>
      cases h' : matchTokenAt (c :: cs') with
      | some tr =>
        obtain ⟨t, rest⟩ := tr
        have hlen := matchTokenAt_length _ _ _ h'
        simp only [List.length_cons] at h hlen
        exact hsome c cs' t rest h' (ih rest (by omega))
      | none =>
        simp only [List.length_cons] at h
        exact hnone c cs' h' (ih cs' (by omega))

theorem tokenize_flatten (cs : List Char) :
    ((tokenize cs).map segOrig).flatten = cs := by
  induction cs using tokenize_ind with
  | hnil => rfl
  | hsome c cs t rest h ih =>
    rw [tokenize_cons_some c cs t rest h]
    obtain ⟨hl, -, -⟩ := matchTokenAt_structure _ _ _ h
    simp only [List.map_cons, List.flatten_cons, ih, segOrig]
    rw [hl]
    simp
  | hnone c cs h ih =>
    rw [tokenize_cons_none c cs h]
    simp [segOrig, ih]

theorem mem_dedupFirst (seen l : List String) (t : String) :
    t ∈ dedupFirst seen l ↔ t ∈ l ∧ t ∉ seen := by
  induction l generalizing seen with
  | nil => simp [dedupFirst]
  | cons k ks ih =>
    rw [dedupFirst]
    by_cases hk : k ∈ seen
    · rw [if_pos hk, ih]
      constructor
      · rintro ⟨h1, h2⟩; exact ⟨List.mem_cons_of_mem _ h1, h2⟩
      · rintro ⟨h1, h2⟩
        rcases List.mem_cons.mp h1 with rfl | h1'
        · exact absurd hk h2
        · exact ⟨h1', h2⟩
    · rw [if_neg hk]
      constructor
      · intro hmem
        rcases List.mem_cons.mp hmem with rfl | hmem'
        · exact ⟨List.mem_cons_self _ _, hk⟩
        · obtain ⟨h1, h2⟩ := (ih (k :: seen)).mp hmem'
          exact ⟨List.mem_cons_of_mem _ h1, fun hs => h2 (List.mem_cons_of_mem _ hs)⟩
      · rintro ⟨h1, h2⟩
        rcases List.mem_cons.mp h1 with rfl | h1'
        · exact List.mem_cons_self _ _
        · by_cases ht : t = k
          · exact ht ▸ List.mem_cons_self _ _
          · refine List.mem_cons_of_mem _ ((ih (k :: seen)).mpr ⟨h1', fun hs => ?_⟩)
            rcases List.mem_cons.mp hs with hs | hs
            · exact ht hs
            · exact h2 hs

theorem dedupFirst_sublist (seen l : List String) : (dedupFirst seen l).Sublist l := by
  induction l generalizing seen with
  | nil => exact List.Sublist.refl []
  | cons k ks ih =>
    rw [dedupFirst]
    by_cases hk : k ∈ seen
    · rw [if_pos hk]; exact (ih seen).cons k
    · rw [if_neg hk]; exact (ih (k :: seen)).cons₂ k

theorem dedupFirst_nodup (seen l : List String) : (dedupFirst seen l).Nodup := by
  induction l generalizing seen with
  | nil => exact List.nodup_nil
  | cons k ks ih =>
    rw [dedupFirst]
    by_cases hk : k ∈ seen
    · rw [if_pos hk]; exact ih seen
    · rw [if_neg hk]
      refine List.nodup_cons.mpr ⟨fun hmem => ?_, ih (k :: seen)⟩
      exact ((mem_dedupFirst _ _ _).mp hmem).2 (List.mem_cons_self _ _)

theorem dedupFirst_pairwise_idx (l : List String) : ∀ seen : List String,
    (dedupFirst seen l).Pairwise
      (fun a b => List.indexOf a l < List.indexOf b l) := by
  induction l with
  | nil => intro seen; exact List.Pairwise.nil
  | cons k ks ih =>
    intro seen
    rw [dedupFirst]
    by_cases hk : k ∈ seen
    · rw [if_pos hk]
      refine List.Pairwise.imp_of_mem ?_ (ih seen)
      intro a b ha hb hab
      have ha' := (mem_dedupFirst seen ks a).mp ha
      have hb' := (mem_dedupFirst seen ks b).mp hb
      have hak : k ≠ a := fun h => ha'.2 (h ▸ hk)
      have hbk : k ≠ b := fun h => hb'.2 (h ▸ hk)
      rw [List.indexOf_cons_ne ks hak, List.indexOf_cons_ne ks hbk]
      omega
    · rw [if_neg hk]
      rw [List.pairwise_cons]
      constructor
      · intro b hb
        have hb' := (mem_dedupFirst (k :: seen) ks b).mp hb
        have hbk : k ≠ b := fun h => hb'.2 (h ▸ List.mem_cons_self k seen)
        rw [List.indexOf_cons_self, List.indexOf_cons_ne ks hbk]
        omega
      · refine List.Pairwise.imp_of_mem ?_ (ih (k :: seen))
        intro a b ha hb hab
        have ha' := (mem_dedupFirst (k :: seen) ks a).mp ha
        have hb' := (mem_dedupFirst (k :: seen) ks b).mp hb
        have hak : k ≠ a := fun h => ha'.2 (h ▸ List.mem_cons_self k seen)
        have hbk : k ≠ b := fun h => hb'.2 (h ▸ List.mem_cons_self k seen)
        rw [List.indexOf_cons_ne ks hak, List.indexOf_cons_ne ks hbk]
        omega

theorem missingKeys_eq_filter (parameters : String → Option String) (segs : List Seg) :
    missingKeys parameters segs =
      (segs.filterMap segName?).filter (fun t => (parameters t).isNone) := by
  induction segs with
  | nil => rfl
  | cons s ss ih =>
    cases s with
    | lit c => simpa [missingKeys, List.filterMap_cons, segMissing, segName?] using ih
    | tok n =>
      cases hp : parameters n with
      | some v =>
        simpa [missingKeys, List.filterMap_cons, segMissing, segName?, hp,
          List.filter_cons] using ih
      | none =>
        simpa [missingKeys, List.filterMap_cons, segMissing, segName?, hp,
          List.filter_cons] using ih

theorem mem_foundTokens (template_text : String) (n : String) :
    n ∈ foundTokens template_text ↔ Seg.tok n ∈ tokenize template_text.data := by
  rw [foundTokens, List.mem_filterMap]
  constructor
  · rintro ⟨s, hs, hname⟩
    cases s with
    | lit c => simp [segName?] at hname
    | tok m =>
      simp only [segName?, Option.some.injEq] at hname
      rw [← hname]; exact hs
  · intro h
    exact ⟨Seg.tok n, h, rfl⟩

theorem missingKeys_nil_iff (parameters : String → Option String) (template_text : String) :
    missingKeys parameters (tokenize template_text.data) = [] ↔
      ∀ t ∈ foundTokens template_text, (parameters t).isSome := by
  rw [missingKeys_eq_filter, List.filter_eq_nil_iff]
  constructor
  · intro h t ht
    have := h t ht
    cases hp : parameters t with
    | none => rw [hp] at this; simp at this
    | some v => simp
  · intro h t ht
    have := h t ht
    cases hp : parameters t with
    | none => rw [hp] at this; simp at this
    | some v => simp [hp]

theorem render_template_ok_of_mapped (template_text : String)
    (parameters : String → Option String)
    (h : ∀ t ∈ foundTokens template_text, (parameters t).isSome) :
    render_template template_text parameters =
      Except.ok (String.mk (renderOut parameters (tokenize template_text.data))) := by
  simp only [render_template]
  rw [if_pos ((missingKeys_nil_iff parameters template_text).mpr h)]

/-- C1: for a template whose well-formed tokens are all mapped to non-null
values, `render_template` succeeds and returns the template with every
placeholder occurrence replaced by the mapped value and every other character
unchanged; in particular each occurrence of the same token is replaced. -/
theorem render_template_replaces_all (template_text : String)
    (parameters : String → Option String)
    (h : ∀ t ∈ foundTokens template_text, (parameters t).isSome) :
    render_template template_text parameters =
      Except.ok (String.mk (((tokenize template_text.data).map fun s =>
        match s with
        | Seg.lit c => [c]
        | Seg.tok n => ((parameters n).getD "").data).flatten)) ∧
    render_template "x\x7b\x7bA\x7d\x7dy\x7b\x7bA\x7d\x7dz"
      (fun t => if t = "A" then some "X" else none) = Except.ok "xXyXz" := by
  constructor
  · rw [render_template_ok_of_mapped template_text parameters h]
    congr 1
    apply congrArg String.mk
    apply congrArg List.flatten
    apply List.map_congr_left
    intro s hs
    cases s with
    | lit c => rfl
    | tok n =>
      have hn : (parameters n).isSome := h n ((mem_foundTokens _ _).mpr hs)
      cases hp : parameters n with
      | none => rw [hp] at hn; simp at hn
      | some v => simp [segRender, hp]
  · rfl

/-- C1 witness: the hypothesis holds for a concrete template and map. -/
theorem render_template_replaces_all_witness :
    render_template "a\x7b\x7bB\x7d\x7dc" (fun t => if t = "B" then some "QQ" else none) =
      Except.ok (String.mk (((tokenize "a\x7b\x7bB\x7d\x7dc".data).map fun s =>
        match s with
        | Seg.lit c => [c]
        | Seg.tok n => (((fun t => if t = "B" then some "QQ" else none) n).getD "").data).flatten)) :=
  (render_template_replaces_all "a\x7b\x7bB\x7d\x7dc"
    (fun t => if t = "B" then some "QQ" else none) (by decide)).1

/-- C2: rendering fails exactly when some well-formed placeholder has an
unmapped (or null) token name; the reported list is the de-duplicated missing
list in first-occurrence order: a `Nodup` sublist of the match-ordered missing
occurrences containing exactly the missing names, sorted by each name's first
occurrence position in that match-ordered list (which determines it uniquely),
and no rendered output is produced on that path; in particular a lone unmapped
`A` is reported as `["A"]`, and missing occurrences `A`,`B`,`A` are reported
as `["A", "B"]`. -/
theorem render_template_failure_spec (template_text : String)
    (parameters : String → Option String) :
    ((∃ e, render_template template_text parameters = Except.error e) ↔
      ∃ t ∈ foundTokens template_text, parameters t = none) ∧
    (∀ e, render_template template_text parameters = Except.error e →
      e.Nodup ∧ e.Sublist (missingKeys parameters (tokenize template_text.data)) ∧
      (∀ t, t ∈ e ↔ t ∈ foundTokens template_text ∧ parameters t = none) ∧
      e.Pairwise (fun a b =>
        List.indexOf a (missingKeys parameters (tokenize template_text.data)) <
        List.indexOf b (missingKeys parameters (tokenize template_text.data)))) ∧
    render_template "pre \x7b\x7bA\x7d\x7d post" (fun _ => none) = Except.error ["A"] ∧
    render_template "\x7b\x7bA\x7d\x7d\x7b\x7bB\x7d\x7d\x7b\x7bA\x7d\x7d"
      (fun _ => none) = Except.error ["A", "B"] := by
  refine ⟨?_, ?_, rfl, rfl⟩
  · simp only [render_template]
    by_cases hm : missingKeys parameters (tokenize template_text.data) = []
    · rw [if_pos hm]
      constructor
      · rintro ⟨e, he⟩; exact absurd he (by simp)
      · rintro ⟨t, ht, hp⟩
        have := (missingKeys_nil_iff parameters template_text).mp hm t ht
        rw [hp] at this; simp at this
    · rw [if_neg hm]
      constructor
      · rintro -
        by_contra hall
        push_neg at hall
        refine hm ((missingKeys_nil_iff parameters template_text).mpr ?_)
        intro t ht
        cases hp : parameters t with
        | none => exact absurd hp (hall t ht)
        | some v => simp
      · rintro -
        exact ⟨_, rfl⟩
  · intro e he
    simp only [render_template] at he
    by_cases hm : missingKeys parameters (tokenize template_text.data) = []
    · rw [if_pos hm] at he; exact absurd he (by simp)
    · rw [if_neg hm] at he
      simp only [Except.error.injEq] at he
      subst he
      refine ⟨dedupFirst_nodup _ _, dedupFirst_sublist _ _, fun t => ?_,
        dedupFirst_pairwise_idx _ _⟩
      rw [mem_dedupFirst]
      simp only [List.not_mem_nil, not_false_iff, and_true]
      rw [missingKeys_eq_filter, List.mem_filter]
      constructor
      · rintro ⟨h1, h2⟩
        exact ⟨h1, Option.isNone_iff_eq_none.mp h2⟩
      · rintro ⟨h1, h2⟩
        exact ⟨h1, Option.isNone_iff_eq_none.mpr h2⟩

/-- C2 witness: the error-path hypothesis holds for a concrete template. -/
theorem render_template_failure_spec_witness :
    (["A"] : List String).Sublist
      (missingKeys (fun _ => none) (tokenize "pre \x7b\x7bA\x7d\x7d post".data)) :=
  ((render_template_failure_spec "pre \x7b\x7bA\x7d\x7d post" (fun _ => none)).2.1
    ["A"] rfl).2.1

theorem seg_length_decomp (segs : List Seg) :
    ((segs.map segOrig).flatten).length =
      ((segs.map fun s => match s with
        | Seg.lit c => [c]
        | Seg.tok n => n.data).flatten).length + 4 * (segs.filterMap segName?).length := by
  induction segs with
  | nil => rfl
  | cons s ss ih =>
    cases s with
    | lit c =>
      simp only [List.map_cons, List.flatten_cons, List.length_append,
        List.filterMap_cons, segOrig, segName?, ih]
      omega
    | tok n =>
      simp only [List.map_cons, List.flatten_cons, List.length_append,
        List.filterMap_cons, segOrig, segName?, ih]
      simp only [List.length_cons, List.length_append, List.length_cons, List.length_nil]
      omega

/-- C9: rendering with the identity substitution (each found token mapped to
its own literal text) succeeds and reproduces the template with each token's
delimiters stripped: every `\x7b\x7bNAME\x7d\x7d` occurrence becomes `NAME`,
non-token text is unchanged, and the length drops by exactly 4 per token
occurrence. -/
theorem render_template_identity_subst (template_text : String)
    (parameters : String → Option String)
    (h : ∀ t ∈ foundTokens template_text, parameters t = some t) :
    ∃ out : String,
      render_template template_text parameters = Except.ok out ∧
      out.data = ((tokenize template_text.data).map fun s =>
        match s with
        | Seg.lit c => [c]
        | Seg.tok n => n.data).flatten ∧
      out.data.length + 4 * (foundTokens template_text).length =
        template_text.data.length := by
  have hsome : ∀ t ∈ foundTokens template_text, (parameters t).isSome := by
    intro t ht; rw [h t ht]; rfl
  have hout : renderOut parameters (tokenize template_text.data) =
      ((tokenize template_text.data).map fun s =>
        match s with
        | Seg.lit c => [c]
        | Seg.tok n => n.data).flatten := by
    apply congrArg List.flatten
    apply List.map_congr_left
    intro s hs
    cases s with
    | lit c => rfl
    | tok n =>
      have hn := h n ((mem_foundTokens _ _).mpr hs)
      simp [segRender, hn]
  refine ⟨String.mk (renderOut parameters (tokenize template_text.data)),
    render_template_ok_of_mapped template_text parameters hsome, hout, ?_⟩
  have h1 := seg_length_decomp (tokenize template_text.data)
  rw [tokenize_flatten] at h1
  show (renderOut parameters (tokenize template_text.data)).length +
    4 * (foundTokens template_text).length = template_text.data.length
  rw [hout]
  simp only [foundTokens]
  omega

/-- C9 witness: the identity-substitution hypothesis at a concrete template. -/
theorem render_template_identity_subst_witness :
    ∃ out : String,
      render_template "a\x7b\x7bB\x7d\x7dc" (fun t => some t) = Except.ok out ∧
      out.data = ((tokenize "a\x7b\x7bB\x7d\x7dc".data).map fun s =>
        match s with
        | Seg.lit c => [c]
        | Seg.tok n => n.data).flatten ∧
      out.data.length + 4 * (foundTokens "a\x7b\x7bB\x7d\x7dc").length =
        "a\x7b\x7bB\x7d\x7dc".data.length :=
  render_template_identity_subst "a\x7b\x7bB\x7d\x7dc" (fun t => some t) (by decide)

/-- C10: brace text that is not a well-formed `\x7b\x7bTOKEN\x7d\x7d`
placeholder (space inside, single braces, empty token, unclosed braces) is left
verbatim for every parameter mapping and never reported missing, and rendering
succeeds on any template whose well-formed placeholders are all mapped. -/
theorem render_template_nonplaceholder_braces :
    (∀ p : String → Option String,
      render_template "\x7b\x7bA B\x7d\x7d" p = Except.ok "\x7b\x7bA B\x7d\x7d") ∧
    (∀ p : String → Option String,
      render_template "\x7bA\x7d" p = Except.ok "\x7bA\x7d") ∧
    (∀ p : String → Option String,
      render_template "\x7b\x7b\x7d\x7d" p = Except.ok "\x7b\x7b\x7d\x7d") ∧
    (∀ p : String → Option String,
      render_template "x\x7b\x7bunclosed" p = Except.ok "x\x7b\x7bunclosed") ∧
    ∀ (template_text : String) (p : String → Option String),
      (∀ t ∈ foundTokens template_text, (p t).isSome) →
      ∃ out, render_template template_text p = Except.ok out :=
  ⟨fun _ => rfl, fun _ => rfl, fun _ => rfl, fun _ => rfl,
   fun tpl p h => ⟨_, render_template_ok_of_mapped tpl p h⟩⟩

/-- C10 witness: the all-mapped hypothesis at a concrete template. -/
theorem render_template_nonplaceholder_braces_witness :
    ∃ out, render_template "\x7b\x7bT\x7d\x7d" (fun _ => some "v") = Except.ok out :=
  render_template_nonplaceholder_braces.2.2.2.2 "\x7b\x7bT\x7d\x7d"
    (fun _ => some "v") (by decide)

/-! ### Job naming -/

theorem determineFromKeys_eq_find (parameters : String → Option String)
    (keys : List String) :
    determineFromKeys parameters keys =
      (keys.find? (qualifies parameters)).bind
        (fun k => (parameters k).map (fun v => sanitize_job_name (pyStrip v))) := by
  induction keys with
  | nil => rfl
  | cons key rest ih =>
    rw [determineFromKeys]
    cases hp : parameters key with
    | none =>
      dsimp only
      have hq : ¬qualifies parameters key = true := by simp [qualifies, hp]
      rw [List.find?_cons_of_neg _ hq, ih]
    | some v =>
      dsimp only
      by_cases hv : v ≠ ""
      · by_cases hs : pyStrip v ≠ ""
        · rw [if_pos hv, if_pos hs]
          have hq : qualifies parameters key = true := by
            simp only [qualifies, hp, Bool.and_eq_true, bne_iff_ne]
            exact ⟨hv, hs⟩
          rw [List.find?_cons_of_pos _ hq]
          simp [hp]
        · rw [if_pos hv, if_neg hs]
          have hq : ¬qualifies parameters key = true := by
            simp only [qualifies, hp, Bool.and_eq_true, bne_iff_ne]
            rintro ⟨-, h2⟩
            exact hs h2
          rw [List.find?_cons_of_neg _ hq, ih]
      · rw [if_neg hv]
        have hq : ¬qualifies parameters key = true := by
          simp only [qualifies, hp, Bool.and_eq_true, bne_iff_ne]
          rintro ⟨h1, -⟩
          exact hv h1
        rw [List.find?_cons_of_neg _ hq, ih]

/-- C6: `determine_job_name` scans the fixed column list in order and returns
the sanitized, stripped value of the first column that is present with a
non-empty stripped value; with no qualifying column it returns the fallback
`case_` plus the 1-based index zero-padded to width 3; in particular the two
spec examples hold. -/
theorem determine_job_name_spec (parameters : String → Option String) (index : Nat) :
    (match DEFAULT_NAME_CANDIDATES.find? (qualifies parameters) with
     | some k => determine_job_name parameters index =
         sanitize_job_name (pyStrip ((parameters k).getD ""))
     | none => determine_job_name parameters index = "case_" ++ pad3 (index + 1)) ∧
    determine_job_name (fun k => if k = "job_name" then some "Example_Job" else none) 0 =
      "Example_Job" ∧
    determine_job_name (fun _ => none) 1 = "case_002" := by
  refine ⟨?_, rfl, rfl⟩
  cases hf : DEFAULT_NAME_CANDIDATES.find? (qualifies parameters) with
  | none =>
    rw [determine_job_name, determineFromKeys_eq_find, hf]
    rfl
  | some k =>
    have hq := List.find?_some hf
    rw [determine_job_name, determineFromKeys_eq_find, hf]
    cases hp : parameters k with
    | none => simp [qualifies, hp] at hq
    | some v => simp [hp]

/-! ### Sanitization -/

theorem collapseUnsafe_cons_safe (b : Bool) (c : Char) (cs : List Char)
    (h : isSafeChar c) : collapseUnsafe b (c :: cs) = c :: collapseUnsafe false cs := by
  rw [collapseUnsafe, if_pos h]

theorem collapseUnsafe_all_safe (l : List Char) (h : ∀ c ∈ l, isSafeChar c) :
    ∀ b, collapseUnsafe b l = l := by
  induction l with
  | nil => intro b; rfl
  | cons c cs ih =>
    intro b
    rw [collapseUnsafe_cons_safe b c cs (h c (List.mem_cons_self _ _))]
    rw [ih (fun d hd => h d (List.mem_cons_of_mem _ hd)) false]

theorem collapseUnsafe_allbad_true (l : List Char) (h : ∀ c ∈ l, ¬isSafeChar c) :
    collapseUnsafe true l = [] := by
  induction l with
  | nil => rfl
  | cons c cs ih =>
    rw [collapseUnsafe, if_neg (h c (List.mem_cons_self _ _)), if_pos rfl]
    exact ih (fun d hd => h d (List.mem_cons_of_mem _ hd))

theorem collapseUnsafe_allbad (l : List Char) (hne : l ≠ [])
    (h : ∀ c ∈ l, ¬isSafeChar c) : collapseUnsafe false l = ['_'] := by
  match l with
  | [] => exact absurd rfl hne
  | c :: cs =>
    rw [collapseUnsafe, if_neg (h c (List.mem_cons_self _ _)), if_neg (by simp)]
    rw [collapseUnsafe_allbad_true cs (fun d hd => h d (List.mem_cons_of_mem _ hd))]

theorem collapseUnsafe_split_at_safe (l1 : List Char) :
    ∀ (b : Bool) (l2 : List Char) (c : Char), isSafeChar c →
    collapseUnsafe b (l1 ++ c :: l2) =
      collapseUnsafe b l1 ++ c :: collapseUnsafe false l2 := by
  induction l1 with
  | nil =>
    intro b l2 c hc
    rw [List.nil_append, collapseUnsafe_cons_safe b c l2 hc]
    rfl
  | cons a l1' ih =>
    intro b l2 c hc
    by_cases ha : isSafeChar a
    · rw [List.cons_append, collapseUnsafe_cons_safe b a _ ha,
        collapseUnsafe_cons_safe b a l1' ha, ih false l2 c hc]
      rfl
    · rw [List.cons_append, collapseUnsafe, if_neg ha]
      conv_rhs => rw [collapseUnsafe, if_neg ha]
      cases b with
      | true =>
        rw [if_pos rfl, if_pos rfl, ih true l2 c hc]
      | false =>
        rw [if_neg (by simp), if_neg (by simp), ih true l2 c hc]
        rfl

theorem collapseUnsafe_chars (l : List Char) : ∀ (b : Bool) (c : Char),
    c ∈ collapseUnsafe b l → isSafeChar c := by
  induction l with
  | nil => intro b c h; simp [collapseUnsafe] at h
  | cons a cs ih =>
    intro b c h
    rw [collapseUnsafe] at h
    by_cases ha : isSafeChar a
    · rw [if_pos ha] at h
      rcases List.mem_cons.mp h with rfl | h'
      · exact ha
      · exact ih false c h'
    · rw [if_neg ha] at h
      cases b with
      | true => rw [if_pos rfl] at h; exact ih true c h
      | false =>
        rw [if_neg (by simp)] at h
        rcases List.mem_cons.mp h with rfl | h'
        · decide
        · exact ih true c h'

theorem collapseUnsafe_ne_nil (c : Char) (cs : List Char) :
    collapseUnsafe false (c :: cs) ≠ [] := by
  rw [collapseUnsafe]
  by_cases hc : isSafeChar c
  · rw [if_pos hc]; simp
  · rw [if_neg hc, if_neg (by simp)]; simp

/-- C7 counterexample: the code collapses the run `!?` to one underscore,
while the per-character description would give two. -/
theorem sanitize_job_name_per_char_counterexample :
    sanitize_job_name "a!?b" = "a_b" ∧
    String.mk ("a!?b".data.map (fun c => if isSafeChar c then c else '_')) = "a__b" ∧
    sanitize_job_name "a!?b" ≠
      String.mk ("a!?b".data.map (fun c => if isSafeChar c then c else '_')) :=
  ⟨rfl, rfl, by decide⟩

/-- C7 (amended): `sanitize_job_name` maps every maximal run of consecutive
characters outside the allow-list to a single underscore, preserves allowed
characters in place (splitting around any allowed character), and replaces an
empty result with the fixed default name; in particular the spec's own example
`My Job!*` gives `My_Job_`. -/
theorem sanitize_job_name_collapses_runs :
    (∀ name : String, (∀ c ∈ name.data, isSafeChar c) →
      sanitize_job_name name = (if name = "" then "case_000" else name)) ∧
    (∀ name : String, name ≠ "" → (∀ c ∈ name.data, ¬isSafeChar c) →
      sanitize_job_name name = "_") ∧
    (∀ (l1 l2 : List Char) (c : Char), isSafeChar c →
      collapseUnsafe false (l1 ++ c :: l2) =
        collapseUnsafe false l1 ++ c :: collapseUnsafe false l2) ∧
    sanitize_job_name "My Job!*" = "My_Job_" := by
  refine ⟨?_, ?_, fun l1 l2 c hc => collapseUnsafe_split_at_safe l1 false l2 c hc, rfl⟩
  · intro name h
    simp only [sanitize_job_name]
    rw [collapseUnsafe_all_safe name.data h false]
  · intro name hne h
    have hdata : name.data ≠ [] := fun hd => hne (String.ext hd)
    simp only [sanitize_job_name]
    rw [collapseUnsafe_allbad name.data hdata h]
    rfl

/-- C7 witness: the run-collapse hypotheses at the concrete input `!!`. -/
theorem sanitize_job_name_collapses_runs_witness :
    sanitize_job_name "!!" = "_" :=
  sanitize_job_name_collapses_runs.2.1 "!!" (by decide) (by decide)

theorem natDigitsAux_digits (fuel : Nat) : ∀ (n : Nat) (c : Char),
    c ∈ natDigitsAux fuel n → c.isDigit := by
  induction fuel with
  | zero => intro n c h; simp [natDigitsAux] at h
  | succ f ih =>
    intro n c h
    have hd10 : ∀ m, m < 10 → (Nat.digitChar m).isDigit := by decide
    rw [natDigitsAux] at h
    by_cases hn : n < 10
    · rw [if_pos hn] at h
      rw [List.mem_singleton.mp h]
      exact hd10 n hn
    · rw [if_neg hn] at h
      rcases List.mem_append.mp h with h' | h'
      · exact ih (n / 10) c h'
      · rw [List.mem_singleton.mp h']
        exact hd10 _ (Nat.mod_lt _ (by omega))

theorem natStr_chars (n : Nat) : ∀ c ∈ (natStr n).data, isSafeChar c := by
  intro c hc
  have hd : c.isDigit := natDigitsAux_digits (n + 1) n c hc
  simp [isSafeChar, Char.isAlphanum, hd]

theorem natStr_ne_nil (n : Nat) : (natStr n).data ≠ [] := by
  show natDigitsAux (n + 1) n ≠ []
  rw [natDigitsAux]
  by_cases hn : n < 10
  · rw [if_pos hn]; simp
  · rw [if_neg hn]; simp

theorem pad3_chars (n : Nat) : ∀ c ∈ (pad3 n).data, isSafeChar c := by
  rw [pad3]
  split
  · intro c hc
    rcases List.mem_append.mp hc with h' | h'
    · rw [List.eq_of_mem_replicate h']; decide
    · exact natStr_chars n c h'
  · exact natStr_chars n

theorem sanitize_job_name_ne_and_safe (name : String) :
    sanitize_job_name name ≠ "" ∧ ∀ c ∈ (sanitize_job_name name).data, isSafeChar c := by
  simp only [sanitize_job_name]
  by_cases h : String.mk (collapseUnsafe false name.data) = ""
  · rw [if_pos h]
    exact ⟨by decide, by decide⟩
  · rw [if_neg h]
    exact ⟨h, fun c hc => collapseUnsafe_chars name.data false c hc⟩

theorem fallback_name_ne_and_safe (index : Nat) :
    ("case_" ++ pad3 (index + 1)) ≠ "" ∧
      ∀ c ∈ ("case_" ++ pad3 (index + 1)).data, isSafeChar c := by
  constructor
  · intro h
    have hdata : ("case_" ++ pad3 (index + 1)).data = [] := by rw [h]
    rw [String.data_append] at hdata
    rcases List.append_eq_nil.mp hdata with ⟨h1, -⟩
    exact absurd h1 (by decide)
  · intro c hc
    rw [String.data_append] at hc
    rcases List.mem_append.mp hc with h' | h'
    · have hsafe : ∀ c ∈ "case_".data, isSafeChar c := by decide
      exact hsafe c h'
    · exact pad3_chars _ c h'

theorem determineFromKeys_some_ex (parameters : String → Option String)
    (keys : List String) (r : String)
    (h : determineFromKeys parameters keys = some r) :
    ∃ v, r = sanitize_job_name v := by
  rw [determineFromKeys_eq_find] at h
  rcases Option.bind_eq_some.mp h with ⟨k, -, h2⟩
  rcases Option.map_eq_some'.mp h2 with ⟨v, -, h3⟩
  exact ⟨pyStrip v, h3.symm⟩

/-- C8 counterexample: a string made only of disallowed characters sanitizes
to an underscore, not to the fixed default fallback name. -/
theorem sanitize_all_invalid_counterexample :
    sanitize_job_name "!" = "_" ∧ sanitize_job_name "!" ≠ "case_000" :=
  ⟨rfl, by decide⟩

/-- C8 (amended): every name returned by `determine_job_name`, and every
output of `sanitize_job_name`, is a non-empty string over `[A-Za-z0-9_-]`; in
particular sanitizing a non-empty string containing no allowed characters
yields the single underscore `_` — a non-empty string, but not the fixed
default fallback name. -/
theorem job_name_safe_invariant :
    (∀ (parameters : String → Option String) (index : Nat),
      determine_job_name parameters index ≠ "" ∧
      ∀ c ∈ (determine_job_name parameters index).data, isSafeChar c) ∧
    (∀ name : String, sanitize_job_name name ≠ "" ∧
      ∀ c ∈ (sanitize_job_name name).data, isSafeChar c) ∧
    (∀ name : String, name ≠ "" → (∀ c ∈ name.data, ¬isSafeChar c) →
      sanitize_job_name name = "_" ∧ sanitize_job_name name ≠ "case_000") := by
  refine ⟨?_, sanitize_job_name_ne_and_safe, ?_⟩
  · intro parameters index
    rw [determine_job_name]
    cases hd : determineFromKeys parameters DEFAULT_NAME_CANDIDATES with
    | some r =>
      obtain ⟨v, rfl⟩ := determineFromKeys_some_ex parameters _ r hd
      exact sanitize_job_name_ne_and_safe v
    | none => exact fallback_name_ne_and_safe index
  · intro name hne h
    have hdata : name.data ≠ [] := fun hd => hne (String.ext hd)
    have hval : sanitize_job_name name = "_" := by
      simp only [sanitize_job_name]
      rw [collapseUnsafe_allbad name.data hdata h]
      rfl
    refine ⟨hval, ?_⟩
    rw [hval]
    decide

/-- C8 witness: the all-invalid hypotheses at a concrete input. -/
theorem job_name_safe_invariant_witness :
    sanitize_job_name "?!" = "_" ∧ sanitize_job_name "?!" ≠ "case_000" :=
  job_name_safe_invariant.2.2 "?!" (by decide) (by decide)

/-! ### The replace-all scan -/

theorem isPrefixBy_take (eqf : Char → Char → Bool) :
    ∀ (pat s : List Char), isPrefixBy eqf pat s = true →
      iMatches eqf pat (s.take pat.length) = true ∧ pat.length ≤ s.length := by
  intro pat
  induction pat with
  | nil => intro s _; exact ⟨rfl, Nat.zero_le _⟩
  | cons p ps ih =>
    intro s h
    match s with
    | [] => simp [isPrefixBy] at h
    | c :: cs =>
      rw [isPrefixBy, Bool.and_eq_true] at h
      obtain ⟨h1, h2⟩ := h
      obtain ⟨ih1, ih2⟩ := ih cs h2
      refine ⟨?_, by simpa using ih2⟩
      rw [List.length_cons, List.take_succ_cons, iMatches, Bool.and_eq_true]
      exact ⟨h1, ih1⟩

theorem iMatches_beq (pat : List Char) :
    ∀ m, iMatches (fun a b => a == b) pat m = true → m = pat := by
  induction pat with
  | nil =>
    intro m h
    match m with
    | [] => rfl
    | c :: cs => simp [iMatches] at h
  | cons p ps ih =>
    intro m h
    match m with
    | [] => simp [iMatches] at h
    | c :: cs =>
      rw [iMatches, Bool.and_eq_true] at h
      rw [← beq_iff_eq.mp h.1, ih cs h.2]

theorem scanReplaceFuel_fuel_irrel (eqf : Char → Char → Bool) (p : Char)
    (ps repl : List Char) (f1 : Nat) :
    ∀ (f2 : Nat) (s : List Char), s.length ≤ f1 → s.length ≤ f2 →
      scanReplaceFuel eqf p ps repl f1 s = scanReplaceFuel eqf p ps repl f2 s := by
  induction f1 with
  | zero =>
    intro f2 s h1 _
    rw [List.length_eq_zero.mp (Nat.le_zero.mp h1)]
    cases f2 <;> rfl
  | succ f ih =>
    intro f2 s h1 h2
    match s with
    | [] => cases f2 <;> rfl
    | c :: cs =>
      match f2 with
      | 0 => exact absurd h2 (by simp)
      | g + 1 =>
        rw [scanReplaceFuel, scanReplaceFuel]
        simp only [List.length_cons] at h1 h2
        by_cases hm : isPrefixBy eqf (p :: ps) (c :: cs) = true
        · rw [if_pos hm, if_pos hm]
          have hd : (cs.drop ps.length).length ≤ cs.length := by
            rw [List.length_drop]; omega
          rw [ih g (cs.drop ps.length) (by omega) (by omega)]
        · rw [if_neg hm, if_neg hm]
          rw [ih g cs (by omega) (by omega)]

theorem scanReplace_cons_pos (eqf : Char → Char → Bool) (p : Char)
    (ps repl : List Char) (c : Char) (cs : List Char)
    (hm : isPrefixBy eqf (p :: ps) (c :: cs) = true) :
    scanReplace eqf p ps repl (c :: cs) =
      (repl ++ (scanReplace eqf p ps repl (cs.drop ps.length)).1,
       (scanReplace eqf p ps repl (cs.drop ps.length)).2 + 1) := by
  show scanReplaceFuel eqf p ps repl (c :: cs).length (c :: cs) = _
  simp only [List.length_cons]
  rw [scanReplaceFuel, if_pos hm]
  have hd : (cs.drop ps.length).length ≤ cs.length := by rw [List.length_drop]; omega
  rw [scanReplaceFuel_fuel_irrel eqf p ps repl cs.length (cs.drop ps.length).length
    (cs.drop ps.length) hd le_rfl]
  rfl

theorem scanReplace_cons_neg (eqf : Char → Char → Bool) (p : Char)
    (ps repl : List Char) (c : Char) (cs : List Char)
    (hm : ¬isPrefixBy eqf (p :: ps) (c :: cs) = true) :
    scanReplace eqf p ps repl (c :: cs) =
      ((c :: (scanReplace eqf p ps repl cs).1), (scanReplace eqf p ps repl cs).2) := by
  show scanReplaceFuel eqf p ps repl (c :: cs).length (c :: cs) = _
  simp only [List.length_cons]
  rw [scanReplaceFuel, if_neg hm]
  rfl

theorem scanReplace_ind (eqf : Char → Char → Bool) (p : Char) (ps : List Char)
    (motive : List Char → Prop) (hnil : motive [])
    (hpos : ∀ c cs, isPrefixBy eqf (p :: ps) (c :: cs) = true →
      motive (cs.drop ps.length) → motive (c :: cs))
    (hneg : ∀ c cs, ¬isPrefixBy eqf (p :: ps) (c :: cs) = true →
      motive cs → motive (c :: cs)) :
    ∀ s, motive s := by
  suffices H : ∀ n s, List.length s ≤ n → motive s from fun s => H s.length s le_rfl
  intro n
  induction n with
  | zero =>
    intro s h
    rw [List.length_eq_zero.mp (Nat.le_zero.mp h)]
    exact hnil
  | succ m ih =>
    intro s h
    match s with
    | [] => exact hnil
    | c :: cs =>
      simp only [List.length_cons] at h
      by_cases hm : isPrefixBy eqf (p :: ps) (c :: cs) = true
      · refine hpos c cs hm (ih _ ?_)
        rw [List.length_drop]; omega
      · exact hneg c cs hm (ih cs (by omega))

theorem scanReplace_decomp (eqf : Char → Char → Bool) (p : Char) (ps repl : List Char) :
    ∀ s : List Char, ∃ (head : List Char) (rest : List (List Char × List Char)),
      s = sewn head rest ∧
      (scanReplace eqf p ps repl s).1 = sewn head (rest.map (fun mp => (repl, mp.2))) ∧
      (scanReplace eqf p ps repl s).2 = rest.length ∧
      ∀ mp ∈ rest, iMatches eqf (p :: ps) mp.1 = true := by
  intro s
  induction s using scanReplace_ind eqf p ps with
  | hnil => exact ⟨[], [], rfl, rfl, rfl, by simp⟩
  | hpos c cs hm ih =>
    obtain ⟨head, rest, hs, hout, hcount, hmatch⟩ := ih
    refine ⟨[], (c :: cs.take ps.length, head) :: rest, ?_, ?_, ?_, ?_⟩
    · calc c :: cs = c :: (cs.take ps.length ++ cs.drop ps.length) := by
            rw [List.take_append_drop]
      _ = (c :: cs.take ps.length) ++ cs.drop ps.length := rfl
      _ = (c :: cs.take ps.length) ++ sewn head rest := by rw [← hs]
      _ = sewn [] ((c :: cs.take ps.length, head) :: rest) := by
            simp [sewn, List.append_assoc]
    · rw [scanReplace_cons_pos eqf p ps repl c cs hm]
      dsimp only
      rw [hout]
      simp [sewn, List.append_assoc]
    · rw [scanReplace_cons_pos eqf p ps repl c cs hm]
      dsimp only
      rw [hcount]
      rfl
    · intro mp hmp
      rcases List.mem_cons.mp hmp with rfl | h'
      · have := (isPrefixBy_take eqf (p :: ps) (c :: cs) hm).1
        rw [List.length_cons, List.take_succ_cons] at this
        exact this
      · exact hmatch mp h'
  | hneg c cs hm ih =>
    obtain ⟨head, rest, hs, hout, hcount, hmatch⟩ := ih
    refine ⟨c :: head, rest, ?_, ?_, ?_, hmatch⟩
    · rw [sewn, List.cons_append, ← sewn, ← hs]
    · rw [scanReplace_cons_neg eqf p ps repl c cs hm]
      dsimp only
      rw [hout]
      rfl
    · rw [scanReplace_cons_neg eqf p ps repl c cs hm]
      dsimp only
      exact hcount

theorem sewn_cons (h m l : List Char) (r : List (List Char × List Char)) :
    sewn h ((m, l) :: r) = h ++ m ++ sewn l r := by
  simp [sewn, List.append_assoc]

theorem sewn_head_append (a b : List Char) (r : List (List Char × List Char)) :
    sewn (a ++ b) r = a ++ sewn b r := by
  simp [sewn, List.append_assoc]

theorem sewn_head_cons (c : Char) (h : List Char) (r : List (List Char × List Char)) :
    sewn (c :: h) r = c :: sewn h r := by
  simp [sewn]

theorem iMatches_length (eqf : Char → Char → Bool) :
    ∀ (pat m : List Char), iMatches eqf pat m = true → m.length = pat.length := by
  intro pat
  induction pat with
  | nil =>
    intro m h
    match m with
    | [] => rfl
    | c :: cs => simp [iMatches] at h
  | cons p ps ih =>
    intro m h
    match m with
    | [] => simp [iMatches] at h
    | c :: cs =>
      rw [iMatches, Bool.and_eq_true] at h
      simp [ih cs h.2]

theorem isPrefixBy_of_iMatches (eqf : Char → Char → Bool) :
    ∀ (pat m t : List Char), iMatches eqf pat m = true →
      isPrefixBy eqf pat (m ++ t) = true := by
  intro pat
  induction pat with
  | nil => intro m t _; rfl
  | cons p ps ih =>
    intro m t h
    match m with
    | [] => simp [iMatches] at h
    | c :: cs =>
      rw [iMatches, Bool.and_eq_true] at h
      rw [List.cons_append, isPrefixBy, Bool.and_eq_true]
      exact ⟨h.1, ih cs t h.2⟩

theorem iMatches_beq_self (pat : List Char) :
    iMatches (fun a b => a == b) pat pat = true := by
  induction pat with
  | nil => rfl
  | cons p ps ih =>
    rw [iMatches, Bool.and_eq_true]
    exact ⟨beq_self_eq_true p, ih⟩

theorem scanReplace_count_max (eqf : Char → Char → Bool) (p : Char) (ps repl : List Char) :
    ∀ (s head : List Char) (rest : List (List Char × List Char)),
      s = sewn head rest → (∀ mp ∈ rest, iMatches eqf (p :: ps) mp.1 = true) →
      rest.length ≤ (scanReplace eqf p ps repl s).2 := by
  intro s
  induction s using scanReplace_ind eqf p ps with
  | hnil =>
    intro head rest hs hm
    match rest with
    | [] => simp
    | (m, l) :: rest' =>
      exfalso
      rw [sewn_cons] at hs
      have hml := iMatches_length eqf (p :: ps) m (hm (m, l) (List.mem_cons_self _ _))
      have hlen := congrArg List.length hs
      simp only [List.length_nil, List.length_append] at hlen
      simp only [List.length_cons] at hml
      omega
  | hpos c cs hmatch ih =>
    intro head rest hs hm
    rw [scanReplace_cons_pos eqf p ps repl c cs hmatch]
    dsimp only
    match rest with
    | [] => simp
    | (m, l) :: rest' =>
      rw [sewn_cons] at hs
      have hml : m.length = ps.length + 1 := by
        have := iMatches_length eqf (p :: ps) m (hm (m, l) (List.mem_cons_self _ _))
        simpa using this
      have hdropeq : cs.drop ps.length = (c :: cs).drop (ps.length + 1) :=
        (List.drop_succ_cons).symm
      by_cases hh : ps.length + 1 ≤ head.length
      · rw [List.append_assoc] at hs
        have hd : cs.drop ps.length = sewn (head.drop (ps.length + 1)) ((m, l) :: rest') := by
          rw [hdropeq, hs, List.drop_append_eq_append_drop,
            Nat.sub_eq_zero_of_le hh, List.drop_zero, sewn_cons, List.append_assoc]
        have hle := ih (head.drop (ps.length + 1)) ((m, l) :: rest') hd hm
        simp only [List.length_cons] at hle ⊢
        omega
      · have hd : cs.drop ps.length = sewn ((head ++ m).drop (ps.length + 1) ++ l) rest' := by
          rw [hdropeq, hs, List.drop_append_eq_append_drop]
          have hz : ps.length + 1 - (head ++ m).length = 0 := by
            rw [List.length_append]
            omega
          rw [hz, List.drop_zero, sewn_head_append]
        have hle := ih ((head ++ m).drop (ps.length + 1) ++ l) rest' hd
          (fun mp hmp => hm mp (List.mem_cons_of_mem _ hmp))
        simp only [List.length_cons]
        omega
  | hneg c cs hmatch ih =>
    intro head rest hs hm
    rw [scanReplace_cons_neg eqf p ps repl c cs hmatch]
    dsimp only
    match head with
    | [] =>
      match rest with
      | [] => simp
      | (m, l) :: rest' =>
        exfalso
        rw [sewn_cons, List.nil_append] at hs
        refine hmatch ?_
        rw [hs]
        exact isPrefixBy_of_iMatches eqf (p :: ps) m (sewn l rest')
          (hm (m, l) (List.mem_cons_self _ _))
    | c' :: head' =>
      rw [sewn_head_cons] at hs
      obtain ⟨-, hcs⟩ := List.cons_eq_cons.mp hs
      exact ih head' rest hcs hm

theorem apply_replacements_exact_single (tgt : Target) (cand : Candidate)
    (base : String) (p : Char) (ps : List Char) (htext : tgt.text.data = p :: ps) :
    apply_replacements base [(tgt, cand)] "完全一致" =
      (String.mk (scanReplace (fun a b => a == b) p ps cand.text.data base.data).1,
       [(scanReplace (fun a b => a == b) p ps cand.text.data base.data).2]) := by
  simp only [apply_replacements, htext, pyReplaceCount]
  rw [if_pos trivial]

theorem apply_replacements_partial_single (tgt : Target) (cand : Candidate)
    (base mode : String) (hmode : mode ≠ "完全一致")
    (p : Char) (ps : List Char) (htext : tgt.text.data = p :: ps) :
    apply_replacements base [(tgt, cand)] mode =
      (String.mk (scanReplace charIEq p ps cand.text.data base.data).1,
       [(scanReplace charIEq p ps cand.text.data base.data).2]) := by
  simp only [apply_replacements, htext, pyReplaceCount]
  rw [if_neg hmode]

theorem apply_replacements_counts_length (pairs : List (Target × Candidate)) :
    ∀ (base : String) (mode : String),
      (apply_replacements base pairs mode).2.length = pairs.length := by
  induction pairs with
  | nil => intro base mode; rfl
  | cons pair rest ih =>
    intro base mode
    rw [apply_replacements]
    simp only [List.length_cons]
    rw [ih]

/-- C4: `apply_replacements` processes its pairs in order over the evolving
text, returning one substitution count per pair; for a single pair the base
text decomposes into literal chunks interleaved with the counted matches, all
of which are replaced — exact matches are literal copies of the target,
partial-mode matches agree with the target case-insensitively — and the
reported count is maximal: no decomposition of the base text into disjoint
matches of the target has more matches than the count, so the count is
exactly the number of non-overlapping occurrences and a partial
(e.g. first-occurrence-only) replacement is excluded; the two spec examples
hold, together with an example over two pairs in which the second count
reflects the text already rewritten by the first pair. -/
theorem apply_replacements_spec :
    (∀ (base : String) (pairs : List (Target × Candidate)) (mode : String),
      (apply_replacements base pairs mode).2.length = pairs.length) ∧
    (∀ (tgt : Target) (cand : Candidate) (base : String), tgt.text.data ≠ [] →
      ∃ head rest,
        base.data = sewn head rest ∧
        (∀ mp ∈ rest, mp.1 = tgt.text.data) ∧
        (apply_replacements base [(tgt, cand)] "完全一致").1.data =
          sewn head (rest.map (fun mp => (cand.text.data, mp.2))) ∧
        (apply_replacements base [(tgt, cand)] "完全一致").2 = [rest.length]) ∧
    (∀ (tgt : Target) (cand : Candidate) (base mode : String),
      mode ≠ "完全一致" → tgt.text.data ≠ [] →
      ∃ head rest,
        base.data = sewn head rest ∧
        (∀ mp ∈ rest, iMatches charIEq tgt.text.data mp.1 = true) ∧
        (apply_replacements base [(tgt, cand)] mode).1.data =
          sewn head (rest.map (fun mp => (cand.text.data, mp.2))) ∧
        (apply_replacements base [(tgt, cand)] mode).2 = [rest.length]) ∧
    (∀ (tgt : Target) (cand : Candidate) (base : String)
      (head : List Char) (rest : List (List Char × List Char)) (k : Nat),
      tgt.text.data ≠ [] →
      base.data = sewn head rest →
      (∀ mp ∈ rest, mp.1 = tgt.text.data) →
      (apply_replacements base [(tgt, cand)] "完全一致").2 = [k] →
      rest.length ≤ k) ∧
    (∀ (tgt : Target) (cand : Candidate) (base mode : String)
      (head : List Char) (rest : List (List Char × List Char)) (k : Nat),
      mode ≠ "完全一致" → tgt.text.data ≠ [] →
      base.data = sewn head rest →
      (∀ mp ∈ rest, iMatches charIEq tgt.text.data mp.1 = true) →
      (apply_replacements base [(tgt, cand)] mode).2 = [k] →
      rest.length ≤ k) ∧
    apply_replacements "ABCxABC"
      [({target_index := 1, text := "ABC", replacements := []}, {index := 1, text := "X"})]
      "完全一致" = ("XxX", [2]) ∧
    apply_replacements "ABCxabc"
      [({target_index := 1, text := "abc", replacements := []}, {index := 1, text := "X"})]
      "部分一致" = ("XxX", [2]) ∧
    apply_replacements "ab"
      [({target_index := 1, text := "a", replacements := []}, {index := 1, text := "b"}),
       ({target_index := 2, text := "b", replacements := []}, {index := 1, text := "c"})]
      "完全一致" = ("cc", [1, 2]) := by
  refine ⟨fun base pairs mode => apply_replacements_counts_length pairs base mode,
    ?_, ?_, ?_, ?_, rfl, rfl, rfl⟩
  · intro tgt cand base hne
    match htext : tgt.text.data with
    | [] => exact absurd htext hne
    | p :: ps =>
      have key : apply_replacements base [(tgt, cand)] "完全一致" =
          (String.mk (scanReplace (fun a b => a == b) p ps cand.text.data base.data).1,
           [(scanReplace (fun a b => a == b) p ps cand.text.data base.data).2]) := by
        simp only [apply_replacements, htext, pyReplaceCount]
        rw [if_pos trivial]
      obtain ⟨head, rest, hs, hout, hcount, hmatch⟩ :=
        scanReplace_decomp (fun a b => a == b) p ps cand.text.data base.data
      refine ⟨head, rest, hs, ?_, ?_, ?_⟩
      · intro mp hmp
        exact iMatches_beq (p :: ps) mp.1 (hmatch mp hmp)
      · rw [key]
        exact hout
      · rw [key]
        rw [hcount]
  · intro tgt cand base mode hmode hne
    match htext : tgt.text.data with
    | [] => exact absurd htext hne
    | p :: ps =>
      have key : apply_replacements base [(tgt, cand)] mode =
          (String.mk (scanReplace charIEq p ps cand.text.data base.data).1,
           [(scanReplace charIEq p ps cand.text.data base.data).2]) := by
        simp only [apply_replacements, htext, pyReplaceCount]
        rw [if_neg hmode]
      obtain ⟨head, rest, hs, hout, hcount, hmatch⟩ :=
        scanReplace_decomp charIEq p ps cand.text.data base.data
      refine ⟨head, rest, hs, ?_, ?_, ?_⟩
      · intro mp hmp
        exact hmatch mp hmp
      · rw [key]
        exact hout
      · rw [key]
        rw [hcount]
  · intro tgt cand base head rest k hne hs hm hk
    match htext : tgt.text.data with
    | [] => exact absurd htext hne
    | p :: ps =>
      rw [apply_replacements_exact_single tgt cand base p ps htext] at hk
      dsimp only at hk
      have hkk := List.singleton_inj.mp hk
      rw [← hkk]
      refine scanReplace_count_max (fun a b => a == b) p ps cand.text.data
        base.data head rest hs ?_
      intro mp hmp
      rw [hm mp hmp, htext]
      exact iMatches_beq_self (p :: ps)
  · intro tgt cand base mode head rest k hmode hne hs hm hk
    match htext : tgt.text.data with
    | [] => exact absurd htext hne
    | p :: ps =>
      rw [apply_replacements_partial_single tgt cand base mode hmode p ps htext] at hk
      dsimp only at hk
      have hkk := List.singleton_inj.mp hk
      rw [← hkk]
      refine scanReplace_count_max charIEq p ps cand.text.data base.data head rest hs ?_
      intro mp hmp
      rw [← htext]
      exact hm mp hmp

/-- C4 witness: the nonempty-target hypothesis at a concrete exact-mode
replacement, and the count-maximality hypotheses at a concrete two-match
decomposition of the same text. -/
theorem apply_replacements_spec_witness :
    (∃ head rest,
      ("ABCxABC" : String).data = sewn head rest ∧
      (∀ mp ∈ rest, mp.1 = (({target_index := 1, text := "ABC", replacements := []} :
        Target)).text.data) ∧
      (apply_replacements "ABCxABC"
        [({target_index := 1, text := "ABC", replacements := []},
          {index := 1, text := "X"})] "完全一致").1.data =
        sewn head (rest.map (fun mp =>
          ((({index := 1, text := "X"} : Candidate)).text.data, mp.2))) ∧
      (apply_replacements "ABCxABC"
        [({target_index := 1, text := "ABC", replacements := []},
          {index := 1, text := "X"})] "完全一致").2 = [rest.length]) ∧
    ([("ABC".data, "x".data), ("ABC".data, ([] : List Char))] :
      List (List Char × List Char)).length ≤ 2 :=
  ⟨apply_replacements_spec.2.1 {target_index := 1, text := "ABC", replacements := []}
    {index := 1, text := "X"} "ABCxABC" (by decide),
   apply_replacements_spec.2.2.2.1 {target_index := 1, text := "ABC", replacements := []}
    {index := 1, text := "X"} "ABCxABC" []
    [("ABC".data, "x".data), ("ABC".data, ([] : List Char))] 2
    (by decide) rfl (by decide) rfl⟩

/-! ### File generation -/

theorem generate_files_characterization (template mode base : String) :
    ∀ selected : List Combination,
      (generate_files selected template mode base).1 =
        (selected.filter (fun combo =>
          !decide (0 ∈ (apply_replacements template combo.pairs mode).2))).map
          (fun combo => (base ++ "_(" ++ combo.label ++ ").inp",
            (apply_replacements template combo.pairs mode).1)) ∧
      (generate_files selected template mode base).2.1 =
        (selected.filter (fun combo =>
          !decide (0 ∈ (apply_replacements template combo.pairs mode).2))).length ∧
      (generate_files selected template mode base).2.2 =
        (selected.filter (fun combo =>
          decide (0 ∈ (apply_replacements template combo.pairs mode).2))).map
          Combination.label := by
  intro selected
  induction selected with
  | nil => exact ⟨rfl, rfl, rfl⟩
  | cons combo rest ih =>
    obtain ⟨ih1, ih2, ih3⟩ := ih
    by_cases h0 : 0 ∈ (apply_replacements template combo.pairs mode).2
    · have hg : generate_files (combo :: rest) template mode base =
          ((generate_files rest template mode base).1,
           (generate_files rest template mode base).2.1,
           combo.label :: (generate_files rest template mode base).2.2) := by
        rw [generate_files, if_pos h0]
      rw [hg]
      have hdec : decide (0 ∈ (apply_replacements template combo.pairs mode).2) = true :=
        decide_eq_true h0
      refine ⟨?_, ?_, ?_⟩
      · simp [List.filter_cons, hdec, ih1]
      · simp [List.filter_cons, hdec, ih2]
      · simp [List.filter_cons, hdec, ih3]
    · have hg : generate_files (combo :: rest) template mode base =
          ((base ++ "_(" ++ combo.label ++ ").inp",
            (apply_replacements template combo.pairs mode).1) ::
              (generate_files rest template mode base).1,
           (generate_files rest template mode base).2.1 + 1,
           (generate_files rest template mode base).2.2) := by
        rw [generate_files, if_neg h0]
      rw [hg]
      have hdec : decide (0 ∈ (apply_replacements template combo.pairs mode).2) = false :=
        decide_eq_false h0
      refine ⟨?_, ?_, ?_⟩
      · simp [List.filter_cons, hdec, ih1]
      · simp [List.filter_cons, hdec, ih2]
      · simp [List.filter_cons, hdec, ih3]

/-- C5: a combination with any zero substitution count is never written and
its label is recorded in the skipped list; every combination with all-nonzero
counts is written as the single file `\x7bbase\x7d_(\x7blabel\x7d).inp`
holding the fully substituted text; written files, the success counter and
skipped labels are exactly the order-preserving partition of the selected
combinations by the zero-count test. -/
theorem generate_files_spec (selected : List Combination)
    (template mode base : String) :
    (generate_files selected template mode base).1 =
      (selected.filter (fun combo =>
        !decide (0 ∈ (apply_replacements template combo.pairs mode).2))).map
        (fun combo => (base ++ "_(" ++ combo.label ++ ").inp",
          (apply_replacements template combo.pairs mode).1)) ∧
    (generate_files selected template mode base).2.1 =
      (selected.filter (fun combo =>
        !decide (0 ∈ (apply_replacements template combo.pairs mode).2))).length ∧
    (generate_files selected template mode base).2.2 =
      (selected.filter (fun combo =>
        decide (0 ∈ (apply_replacements template combo.pairs mode).2))).map
        Combination.label ∧
    (∀ combo ∈ selected, 0 ∈ (apply_replacements template combo.pairs mode).2 →
      combo.label ∈ (generate_files selected template mode base).2.2) ∧
    (∀ combo ∈ selected, 0 ∉ (apply_replacements template combo.pairs mode).2 →
      (base ++ "_(" ++ combo.label ++ ").inp",
        (apply_replacements template combo.pairs mode).1) ∈
        (generate_files selected template mode base).1) := by
  obtain ⟨h1, h2, h3⟩ := generate_files_characterization template mode base selected
  refine ⟨h1, h2, h3, ?_, ?_⟩
  · intro combo hmem h0
    rw [h3]
    exact List.mem_map_of_mem Combination.label
      (List.mem_filter.mpr ⟨hmem, decide_eq_true h0⟩)
  · intro combo hmem h0
    rw [h1]
    exact List.mem_map_of_mem _
      (List.mem_filter.mpr ⟨hmem, by rw [decide_eq_false h0]; rfl⟩)

/-- C5 witness: a concrete pair of combinations, one written and one
skipped. -/
theorem generate_files_spec_witness :
    ({label := "2", pairs := [({target_index := 1, text := "Z", replacements := []},
      {index := 1, text := "X"})]} : Combination).label ∈
      (generate_files
        [{label := "1", pairs := [({target_index := 1, text := "A", replacements := []},
          {index := 1, text := "X"})]},
         {label := "2", pairs := [({target_index := 1, text := "Z", replacements := []},
          {index := 1, text := "X"})]}]
        "AB" "完全一致" "base").2.2 :=
  (generate_files_spec
    [{label := "1", pairs := [({target_index := 1, text := "A", replacements := []},
      {index := 1, text := "X"})]},
     {label := "2", pairs := [({target_index := 1, text := "Z", replacements := []},
      {index := 1, text := "X"})]}]
    "AB" "完全一致" "base").2.2.2.1
    {label := "2", pairs := [({target_index := 1, text := "Z", replacements := []},
      {index := 1, text := "X"})]}
    (by decide) (by decide)

/-! ### Decimal labels -/

theorem natDigitsAux_fuel_irrel (f1 : Nat) : ∀ (f2 n : Nat), n < f1 → n < f2 →
    natDigitsAux f1 n = natDigitsAux f2 n := by
  induction f1 with
  | zero => intro f2 n h1 _; omega
  | succ f ih =>
    intro f2 n h1 h2
    match f2 with
    | 0 => omega
    | g + 1 =>
      rw [natDigitsAux, natDigitsAux]
      by_cases hn : n < 10
      · rw [if_pos hn, if_pos hn]
      · rw [if_neg hn, if_neg hn]
        have hdiv : n / 10 < n := Nat.div_lt_self (by omega) (by omega)
        rw [ih g (n / 10) (by omega) (by omega)]

theorem natDigitsAux_ne_nil (f n : Nat) (hf : 0 < f) : natDigitsAux f n ≠ [] := by
  match f with
  | 0 => omega
  | g + 1 =>
    rw [natDigitsAux]
    by_cases hn : n < 10
    · rw [if_pos hn]; simp
    · rw [if_neg hn]; simp

theorem natDigitsAux_inj (f : Nat) : ∀ (a b : Nat), a < f → b < f →
    natDigitsAux f a = natDigitsAux f b → a = b := by
  induction f with
  | zero => intro a b h1 _ _; omega
  | succ g ih =>
    intro a b h1 h2 heq
    have hdc : ∀ x < 10, ∀ y < 10, Nat.digitChar x = Nat.digitChar y → x = y := by decide
    rw [natDigitsAux, natDigitsAux] at heq
    by_cases ha : a < 10
    · by_cases hb : b < 10
      · rw [if_pos ha, if_pos hb] at heq
        exact hdc a ha b hb (List.singleton_inj.mp heq)
      · rw [if_pos ha, if_neg hb] at heq
        have := congrArg List.length heq
        simp only [List.length_singleton, List.length_append] at this
        have hne := natDigitsAux_ne_nil g (b / 10) (by omega)
        have : (natDigitsAux g (b / 10)).length = 0 := by omega
        exact absurd (List.length_eq_zero.mp this) hne
    · by_cases hb : b < 10
      · rw [if_neg ha, if_pos hb] at heq
        have := congrArg List.length heq
        simp only [List.length_singleton, List.length_append] at this
        have hne := natDigitsAux_ne_nil g (a / 10) (by omega)
        have : (natDigitsAux g (a / 10)).length = 0 := by omega
        exact absurd (List.length_eq_zero.mp this) hne
      · rw [if_neg ha, if_neg hb] at heq
        obtain ⟨hpre, hlast⟩ := List.append_inj' heq (by simp)
        have hda : a / 10 < a := Nat.div_lt_self (by omega) (by omega)
        have hdb : b / 10 < b := Nat.div_lt_self (by omega) (by omega)
        have hdiv := ih (a / 10) (b / 10) (by omega) (by omega) hpre
        have hmod : a % 10 = b % 10 :=
          hdc _ (Nat.mod_lt _ (by omega)) _ (Nat.mod_lt _ (by omega))
            (List.singleton_inj.mp hlast)
        omega

theorem natStr_inj (a b : Nat) (h : natStr a = natStr b) : a = b := by
  have hd : natDigitsAux (a + 1) a = natDigitsAux (b + 1) b := congrArg String.data h
  have ha : natDigitsAux (a + 1) a = natDigitsAux (a + b + 1) a :=
    natDigitsAux_fuel_irrel (a + 1) (a + b + 1) a (by omega) (by omega)
  have hb : natDigitsAux (b + 1) b = natDigitsAux (a + b + 1) b :=
    natDigitsAux_fuel_irrel (b + 1) (a + b + 1) b (by omega) (by omega)
  exact natDigitsAux_inj (a + b + 1) a b (by omega) (by omega) (ha ▸ hb ▸ hd)

theorem natStr_no_dash (n : Nat) : '-' ∉ (natStr n).data := by
  intro hmem
  have := natDigitsAux_digits (n + 1) n '-' hmem
  exact absurd this (by decide)

theorem joinDash_data_cons (s r : String) (rs : List String) :
    (joinDash (s :: r :: rs)).data = s.data ++ '-' :: (joinDash (r :: rs)).data := by
  rw [joinDash]
  · rw [String.data_append, String.data_append]
    simp
  · simp

theorem joinDash_inj : ∀ (l1 l2 : List String),
    (∀ s ∈ l1, s.data ≠ [] ∧ '-' ∉ s.data) →
    (∀ s ∈ l2, s.data ≠ [] ∧ '-' ∉ s.data) →
    joinDash l1 = joinDash l2 → l1 = l2 := by
  intro l1
  induction l1 with
  | nil =>
    intro l2 _ h2 heq
    match l2 with
    | [] => rfl
    | s2 :: r2 =>
      exfalso
      have hdata := congrArg String.data heq
      match r2 with
      | [] =>
        exact (h2 s2 (List.mem_cons_self _ _)).1 (by
          rw [joinDash] at hdata; exact hdata.symm)
      | t2 :: u2 =>
        rw [joinDash_data_cons s2 t2 u2] at hdata
        exact List.append_ne_nil_of_right_ne_nil _ (by simp) hdata.symm
  | cons s1 r1 ih =>
    intro l2 h1 h2 heq
    match l2 with
    | [] =>
      exfalso
      have hdata := congrArg String.data heq
      match r1 with
      | [] =>
        exact (h1 s1 (List.mem_cons_self _ _)).1 (by
          rw [joinDash] at hdata; exact hdata)
      | t1 :: u1 =>
        rw [joinDash_data_cons s1 t1 u1] at hdata
        exact List.append_ne_nil_of_right_ne_nil _ (by simp) hdata
    | s2 :: r2 =>
      match r1, r2 with
      | [], [] =>
        rw [joinDash, joinDash] at heq
        rw [heq]
      | [], t2 :: u2 =>
        exfalso
        have hdata := congrArg String.data heq
        rw [joinDash, joinDash_data_cons s2 t2 u2] at hdata
        refine (h1 s1 (List.mem_cons_self _ _)).2 ?_
        rw [hdata]
        exact List.mem_append_right _ (List.mem_cons_self _ _)
      | t1 :: u1, [] =>
        exfalso
        have hdata := congrArg String.data heq
        rw [joinDash, joinDash_data_cons s1 t1 u1] at hdata
        refine (h2 s2 (List.mem_cons_self _ _)).2 ?_
        rw [← hdata]
        exact List.mem_append_right _ (List.mem_cons_self _ _)
      | t1 :: u1, t2 :: u2 =>
        have hdata := congrArg String.data heq
        rw [joinDash_data_cons s1 t1 u1, joinDash_data_cons s2 t2 u2] at hdata
        rcases List.append_eq_append_iff.mp hdata with ⟨a, ha, hrest⟩ | ⟨a, ha, hrest⟩
        · match a, hrest with
          | [], hrest =>
            rw [List.append_nil] at ha
            have hs : s1 = s2 := String.ext ha.symm
            rw [List.nil_append] at hrest
            have hj : joinDash (t1 :: u1) = joinDash (t2 :: u2) :=
              String.ext (List.cons_eq_cons.mp hrest).2
            rw [hs, ih (t2 :: u2) (fun s hs => h1 s (List.mem_cons_of_mem _ hs))
              (fun s hs => h2 s (List.mem_cons_of_mem _ hs)) hj]
          | x :: xs, hrest =>
            exfalso
            refine (h2 s2 (List.mem_cons_self _ _)).2 ?_
            rw [ha]
            have hx : '-' = x := (List.cons_eq_cons.mp hrest).1
            rw [hx]
            exact List.mem_append_right _ (List.mem_cons_self _ _)
        · match a, hrest with
          | [], hrest =>
            rw [List.append_nil] at ha
            have hs : s1 = s2 := String.ext ha
            rw [List.nil_append] at hrest
            have hj : joinDash (t1 :: u1) = joinDash (t2 :: u2) :=
              String.ext ((List.cons_eq_cons.mp hrest).2).symm
            rw [hs, ih (t2 :: u2) (fun s hs => h1 s (List.mem_cons_of_mem _ hs))
              (fun s hs => h2 s (List.mem_cons_of_mem _ hs)) hj]
          | x :: xs, hrest =>
            exfalso
            refine (h1 s1 (List.mem_cons_self _ _)).2 ?_
            rw [ha]
            have hx : '-' = x := (List.cons_eq_cons.mp hrest).1
            rw [hx]
            exact List.mem_append_right _ (List.mem_cons_self _ _)

/-! ### Cartesian products -/

theorem sum_map_const_nat {α : Type} (l : List α) (k : Nat) :
    (l.map (fun _ => k)).sum = l.length * k := by
  induction l with
  | nil => simp
  | cons a l ih =>
    simp only [List.map_cons, List.sum_cons, ih, List.length_cons]
    ring

theorem listProd_length {α : Type} : ∀ ls : List (List α),
    (listProd ls).length = (ls.map List.length).prod := by
  intro ls
  induction ls with
  | nil => rfl
  | cons l ls ih =>
    rw [listProd, List.length_flatMap]
    have hconst : List.map (List.length ∘ fun x => List.map (x :: ·) (listProd ls)) l =
        l.map (fun _ => (listProd ls).length) := by
      apply List.map_congr_left
      intro a _
      simp
    rw [hconst, sum_map_const_nat l (listProd ls).length, ih, List.map_cons,
      List.prod_cons, Nat.mul_comm]

theorem listProd_mem_length {α : Type} : ∀ (ls : List (List α)) (p : List α),
    p ∈ listProd ls → p.length = ls.length := by
  intro ls
  induction ls with
  | nil =>
    intro p hp
    rw [listProd] at hp
    simp only [List.mem_singleton] at hp
    rw [hp]
    rfl
  | cons l ls ih =>
    intro p hp
    rw [listProd] at hp
    rcases List.mem_flatMap.mp hp with ⟨x, hx, hmem⟩
    rcases List.mem_map.mp hmem with ⟨q, hq, rfl⟩
    simp [ih q hq]

theorem lex_irrefl {α : Type} (r : α → α → Prop) (hr : ∀ a, ¬r a a) :
    ∀ l : List α, ¬List.Lex r l l := by
  intro l
  induction l with
  | nil => intro h; cases h
  | cons a l ih =>
    intro h
    cases h with
    | cons h' => exact ih h'
    | rel h' => exact hr a h'

theorem lex_map_of_lex {α β : Type} (r : α → α → Prop) (rb : β → β → Prop) (f : α → β)
    (hf : ∀ a b, r a b → rb (f a) (f b)) :
    ∀ (l1 l2 : List α), List.Lex r l1 l2 → List.Lex rb (l1.map f) (l2.map f) := by
  intro l1 l2 h
  induction h with
  | nil => exact List.Lex.nil
  | cons h' ih => exact List.Lex.cons ih
  | rel h' => exact List.Lex.rel (hf _ _ h')

theorem listProd_pairwise_lex {α : Type} (r : α → α → Prop) :
    ∀ ls : List (List α), (∀ l ∈ ls, l.Pairwise r) →
      (listProd ls).Pairwise (List.Lex r) := by
  intro ls
  induction ls with
  | nil => intro _; exact List.pairwise_singleton _ _
  | cons l ls ih =>
    intro h
    rw [listProd, List.pairwise_flatMap]
    constructor
    · intro x hx
      rw [List.pairwise_map]
      refine (ih (fun m hm => h m (List.mem_cons_of_mem _ hm))).imp ?_
      intro a b hab
      exact List.Lex.cons hab
    · refine (h l (List.mem_cons_self _ _)).imp ?_
      intro x y hxy a ha b hb
      rcases List.mem_map.mp ha with ⟨pa, hpa, rfl⟩
      rcases List.mem_map.mp hb with ⟨pb, hpb, rfl⟩
      exact List.Lex.rel hxy

theorem build_combinations_eq (targets : List Target) (hne : targets ≠ []) :
    build_combinations targets =
      (listProd (targets.map Target.replacements)).map (fun product =>
        { label := joinDash (product.map fun item => natStr item.index),
          pairs := targets.zip product }) := by
  rw [build_combinations, if_neg hne]

theorem natStr_parts_wf (l : List Nat) :
    ∀ s ∈ l.map natStr, s.data ≠ [] ∧ '-' ∉ s.data := by
  intro s hs
  rcases List.mem_map.mp hs with ⟨n, -, rfl⟩
  exact ⟨natStr_ne_nil n, natStr_no_dash n⟩

theorem joinDash_natStr_inj (l1 l2 : List Nat)
    (h : joinDash (l1.map natStr) = joinDash (l2.map natStr)) : l1 = l2 :=
  List.map_injective_iff.mpr (fun a b hab => natStr_inj a b hab)
    (joinDash_inj (l1.map natStr) (l2.map natStr)
      (natStr_parts_wf l1) (natStr_parts_wf l2) h)

/-- C3: `build_combinations` of no targets is empty, a target with no
candidates yields an empty result (not an error), the number of combinations
is the product of the candidate counts, labels (candidate indices joined by
`-` in target order) are pairwise distinct, and the combinations are ordered
lexicographically over their candidate-index sequences, provided each
target's candidate indices are strictly increasing (as the collection step
guarantees). -/
theorem build_combinations_spec :
    build_combinations [] = [] ∧
    (∀ targets : List Target, (∃ t ∈ targets, t.replacements = []) →
      build_combinations targets = []) ∧
    (∀ targets : List Target, targets ≠ [] →
      (build_combinations targets).length =
        (targets.map (fun t => t.replacements.length)).prod) ∧
    (∀ targets : List Target,
      (∀ t ∈ targets, (t.replacements.map Candidate.index).Pairwise (· < ·)) →
      ((build_combinations targets).map Combination.label).Nodup) ∧
    (∀ targets : List Target,
      (∀ t ∈ targets, (t.replacements.map Candidate.index).Pairwise (· < ·)) →
      ((build_combinations targets).map
        (fun combo => combo.pairs.map (fun pr => pr.2.index))).Pairwise
        (List.Lex (· < ·))) ∧
    (∀ (targets : List Target) (combo : Combination),
      combo ∈ build_combinations targets →
      combo.label = joinDash ((combo.pairs.map (fun pr => pr.2.index)).map natStr)) := by
  have hlenmem : ∀ (targets : List Target) (prod : List Candidate),
      prod ∈ listProd (targets.map Target.replacements) → prod.length = targets.length := by
    intro targets prod hprod
    have := listProd_mem_length (targets.map Target.replacements) prod hprod
    simpa using this
  have hmapidx : ∀ (targets : List Target),
      (∀ t ∈ targets, (t.replacements.map Candidate.index).Pairwise (· < ·)) →
      (listProd (targets.map Target.replacements)).Pairwise
        (List.Lex (fun a b : Candidate => a.index < b.index)) := by
    intro targets h
    apply listProd_pairwise_lex
    intro l hl
    rcases List.mem_map.mp hl with ⟨t, ht, rfl⟩
    exact List.pairwise_map.mp (h t ht)
  refine ⟨rfl, ?_, ?_, ?_, ?_, ?_⟩
  · rintro targets ⟨t, ht, hrep⟩
    by_cases hne : targets = []
    · rw [hne]; rfl
    · have h0 : (0 : ℕ) ∈ (targets.map Target.replacements).map List.length := by
        refine List.mem_map.mpr ⟨t.replacements, List.mem_map_of_mem _ ht, ?_⟩
        rw [hrep]; rfl
      have hz : (build_combinations targets).length = 0 := by
        rw [build_combinations_eq targets hne, List.length_map, listProd_length,
          List.prod_eq_zero h0]
      exact List.eq_nil_of_length_eq_zero hz
  · intro targets hne
    rw [build_combinations_eq targets hne, List.length_map, listProd_length,
      List.map_map]
    rfl
  · intro targets hidx
    by_cases hne : targets = []
    · rw [hne]
      exact List.nodup_nil
    · rw [build_combinations_eq targets hne, List.map_map]
      have hP := hmapidx targets hidx
      refine List.Pairwise.map _ ?_ hP
      intro a b hab heq
      have hlab : joinDash ((a.map (fun item => item.index)).map natStr) =
          joinDash ((b.map (fun item => item.index)).map natStr) := by
        rw [List.map_map, List.map_map]
        exact heq
      have hidxeq : a.map (fun item => item.index) = b.map (fun item => item.index) :=
        joinDash_natStr_inj _ _ hlab
      have hlex : List.Lex (· < ·) (a.map (fun item => item.index))
          (b.map (fun item => item.index)) :=
        lex_map_of_lex (fun a b : Candidate => a.index < b.index) (· < ·)
          (fun item => item.index) (fun x y h => h) a b hab
      rw [hidxeq] at hlex
      exact lex_irrefl (· < ·) (fun n => Nat.lt_irrefl n) _ hlex
  · intro targets hidx
    by_cases hne : targets = []
    · rw [hne]
      exact List.Pairwise.nil
    · rw [build_combinations_eq targets hne, List.map_map, List.pairwise_map]
      have hP := hmapidx targets hidx
      refine List.Pairwise.imp_of_mem ?_ hP
      intro a b ha hb hab
      have hga : (targets.zip a).map (fun pr => pr.2.index) =
          a.map (fun item => item.index) := by
        have hlen := hlenmem targets a ha
        calc (targets.zip a).map (fun pr => pr.2.index)
            = ((targets.zip a).map Prod.snd).map (fun item => item.index) := by
              rw [List.map_map]
              exact rfl
          _ = a.map (fun item => item.index) := by
              rw [List.map_snd_zip targets a (by omega)]
      have hgb : (targets.zip b).map (fun pr => pr.2.index) =
          b.map (fun item => item.index) := by
        have hlen := hlenmem targets b hb
        calc (targets.zip b).map (fun pr => pr.2.index)
            = ((targets.zip b).map Prod.snd).map (fun item => item.index) := by
              rw [List.map_map]
              exact rfl
          _ = b.map (fun item => item.index) := by
              rw [List.map_snd_zip targets b (by omega)]
      show List.Lex (· < ·) ((targets.zip a).map (fun pr => pr.2.index))
        ((targets.zip b).map (fun pr => pr.2.index))
      rw [hga, hgb]
      exact lex_map_of_lex (fun a b : Candidate => a.index < b.index) (· < ·)
        (fun item => item.index) (fun x y h => h) a b hab
  · intro targets combo hmem
    by_cases hne : targets = []
    · rw [hne] at hmem
      exact absurd hmem (List.not_mem_nil _)
    · rw [build_combinations_eq targets hne] at hmem
      rcases List.mem_map.mp hmem with ⟨prod, hprod, rfl⟩
      have hlen := hlenmem targets prod hprod
      show joinDash (prod.map fun item => natStr item.index) =
        joinDash (((targets.zip prod).map (fun pr => pr.2.index)).map natStr)
      congr 1
      calc prod.map (fun item => natStr item.index)
          = (prod.map (fun item => item.index)).map natStr := by
            rw [List.map_map]
            exact rfl
        _ = (((targets.zip prod).map Prod.snd).map (fun item => item.index)).map natStr := by
            rw [List.map_snd_zip targets prod (by omega)]
        _ = ((targets.zip prod).map (fun pr => pr.2.index)).map natStr := by
            simp only [List.map_map]
            exact rfl

/-- C3 witness: strictly increasing candidate indices at a concrete target
set. -/
theorem build_combinations_spec_witness :
    ((build_combinations
      [{target_index := 1, text := "A",
        replacements := [{index := 1, text := "x"}, {index := 2, text := "y"}]},
       {target_index := 2, text := "B",
        replacements := [{index := 1, text := "u"}]}]).map
      Combination.label).Nodup :=
  build_combinations_spec.2.2.2.1 _ (by decide)
